import Mathlib

/-!
Verification of the retrying multi-source data-fetch and reconciliation layer
of the he-tokens-snapshot repository, as a shallow embedding in Lean 4.

Conventions of the embedding:
* Python floats are modelled as rationals (ℚ); timestamps as ℚ or ℤ.
* The remote provider is modelled as an oracle: a function from the attempt
  index to the outcome of that attempt (a successful record list, a `None`
  result, or a raised exception carrying its message string).
* `time.sleep` and remote queries are recorded in an event trace so that
  backoff behaviour is observable.
* Python dicts are modelled as association lists with unique keys
  (first-match lookup, update-in-place-or-append write).
-/

namespace HiveEngineUtils

/-- Result of one call of `api.find` inside `fetch_from_hive_engine`:
a successful (non-None) record list, a `None` result, or a raised
exception carrying its message. Records are abstracted as rationals. -/
inductive Outcome where
  | ok (res : List ℚ)
  | noneRes
  | err (msg : String)

/-- Error classes distinguished by the `except` block of
`fetch_from_hive_engine` (hive_engine_utils.py lines 56-74). The two
`continue` branches (503/unavailable and timeout/connection) behave
identically, so they share the `transient` class. -/
inductive ErrClass where
  | transient
  | rateLimit
  | other
  deriving DecidableEq

/-- Observable side effects of `fetch_from_hive_engine`: sleeping for a
duration, or issuing the remote query of a given attempt index. -/
inductive Event where
  | sleep (duration : ℚ)
  | query (attempt : ℕ)
  deriving DecidableEq

/-- Substring test, modelling Python's `"pat" in s`. -/
def hasSub (s pat : String) : Bool :=
  (List.range (s.data.length + 1)).any (fun i => List.isPrefixOf pat.data (s.data.drop i))

/-- Lowercasing of an exception message, modelling Python's
`str.lower()` (per-character lowercase; the indicator substrings are all
ASCII). -/
def lowerStr (s : String) : String :=
  ⟨s.data.map Char.toLower⟩

/-- Error classification of `fetch_from_hive_engine` (lines 61-74),
applied to the lowercased exception message. -/
def classify (msg : String) : ErrClass :=
  if hasSub msg "service temporarily unavailable" || hasSub msg "503" then ErrClass.transient
  else if hasSub msg "timeout" || hasSub msg "connection" then ErrClass.transient
  else if hasSub msg "rate limit" || hasSub msg "429" then ErrClass.rateLimit
  else ErrClass.other

/-- The backoff sleep issued at the top of the retry loop (lines 44-48):
nothing on attempt 0, otherwise one sleep of
`delay * 2^(attempt-1) + jitter`. `jit` is the oracle for
`random.uniform(0.5, 1.5)`, indexed by attempt. -/
def backoffSleep (d : ℚ) (jit : ℕ → ℚ) (attempt : ℕ) : List Event :=
  if attempt = 0 then [] else [Event.sleep (d * 2 ^ (attempt - 1) + jit attempt)]

/-- Body of the retry loop of `fetch_from_hive_engine` (lines 41-81).
`fuel` is the number of loop iterations remaining (`retries - attempt`),
`attempt` the current attempt index; `out` gives each attempt's outcome.
Returns the event trace and the returned record list. The Python
`if attempt == retries - 1: return []` line and the final `return []`
both yield the empty list, which the fuel-0 case models. -/
def fetchGo (d : ℚ) (out : ℕ → Outcome) (jit : ℕ → ℚ) : ℕ → ℕ → List Event × List ℚ
  | 0, _ => ([], [])
  | fuel + 1, attempt =>
    let pre := backoffSleep d jit attempt
    match out attempt with
    | Outcome.ok res => (pre ++ [Event.query attempt], res)
    | Outcome.noneRes => (pre ++ [Event.query attempt], [])
    | Outcome.err m =>
      match classify (lowerStr m) with
      | ErrClass.transient =>
        let rest := fetchGo d out jit fuel (attempt + 1)
        (pre ++ Event.query attempt :: rest.1, rest.2)
      | ErrClass.rateLimit =>
        let rest := fetchGo d out jit fuel (attempt + 1)
        (pre ++ Event.query attempt :: Event.sleep (2 * d) :: rest.1, rest.2)
      | ErrClass.other =>
        if 2 ≤ attempt then (pre ++ [Event.query attempt], [])
        else
          let rest := fetchGo d out jit fuel (attempt + 1)
          (pre ++ Event.query attempt :: rest.1, rest.2)

/-- Event trace of `fetch_from_hive_engine` with base delay `d` and retry
budget `retries`. -/
def fetchEvents (d : ℚ) (retries : ℕ) (out : ℕ → Outcome) (jit : ℕ → ℚ) : List Event :=
  (fetchGo d out jit retries 0).1

/-- Returned value of `fetch_from_hive_engine`. -/
def fetchResult (d : ℚ) (retries : ℕ) (out : ℕ → Outcome) (jit : ℕ → ℚ) : List ℚ :=
  (fetchGo d out jit retries 0).2

/-- Number of remote queries in a trace. -/
def numQueries (tr : List Event) : ℕ :=
  (tr.filter (fun e => match e with | Event.query _ => true | _ => false)).length

lemma backoffSleep_zero (d : ℚ) (jit : ℕ → ℚ) : backoffSleep d jit 0 = [] := by
  simp [backoffSleep]

lemma backoffSleep_pos (d : ℚ) (jit : ℕ → ℚ) (a : ℕ) (ha : a ≠ 0) :
    backoffSleep d jit a = [Event.sleep (d * 2 ^ (a - 1) + jit a)] := by
  simp [backoffSleep, ha]

lemma backoffSleep_no_query (d : ℚ) (jit : ℕ → ℚ) (a i : ℕ) :
    Event.query i ∉ backoffSleep d jit a := by
  by_cases ha : a = 0 <;> simp [backoffSleep, ha]

lemma split_at_query (p rest xs ys : List Event) (a k : ℕ)
    (h : p ++ Event.query a :: rest = xs ++ Event.query k :: ys)
    (hp : ∀ i, Event.query i ∉ p) :
    (xs = p ∧ k = a ∧ ys = rest) ∨
    (∃ xs2, xs = p ++ Event.query a :: xs2 ∧ rest = xs2 ++ Event.query k :: ys) := by
  induction p generalizing xs with
  | nil =>
    cases xs with
    | nil =>
      simp only [List.nil_append] at h
      injection h with hx hys
      injection hx with hak
      exact Or.inl ⟨rfl, hak.symm, hys.symm⟩
    | cons x xs' =>
      simp only [List.nil_append, List.cons_append] at h
      injection h with hx hrest
      exact Or.inr ⟨xs', by rw [List.nil_append, ← hx], hrest⟩
  | cons e p' ih =>
    cases xs with
    | nil =>
      simp only [List.cons_append, List.nil_append] at h
      injection h with hx _
      subst hx
      exact absurd (List.mem_cons_self _ _) (hp k)
    | cons x xs' =>
      simp only [List.cons_append] at h
      injection h with hx hrest
      have hp' : ∀ i, Event.query i ∉ p' := fun i hi => hp i (List.mem_cons_of_mem e hi)
      rcases ih xs' hrest hp' with ⟨h1, h2, h3⟩ | ⟨xs2, h1, h2⟩
      · exact Or.inl ⟨by rw [h1, hx], h2, h3⟩
      · exact Or.inr ⟨xs2, by rw [h1, hx, List.cons_append], h2⟩

lemma peel_front (p t xs ys : List Event) (k : ℕ)
    (h : p ++ t = xs ++ Event.query k :: ys)
    (hp : ∀ i, Event.query i ∉ p) :
    ∃ xs2, xs = p ++ xs2 ∧ t = xs2 ++ Event.query k :: ys := by
  induction p generalizing xs with
  | nil => exact ⟨xs, by simp, by simpa using h⟩
  | cons e p' ih =>
    cases xs with
    | nil =>
      simp only [List.cons_append, List.nil_append] at h
      injection h with hx _
      subst hx
      exact absurd (List.mem_cons_self _ _) (hp k)
    | cons x xs' =>
      simp only [List.cons_append] at h
      injection h with hx hrest
      obtain ⟨xs2, h1, h2⟩ := ih xs' hrest (fun i hi => hp i (List.mem_cons_of_mem e hi))
      exact ⟨xs2, by rw [h1, hx, List.cons_append], h2⟩

lemma fetchGo_head (d : ℚ) (out : ℕ → Outcome) (jit : ℕ → ℚ) (fuel a : ℕ) (hf : 0 < fuel) :
    ∃ rest res,
      fetchGo d out jit fuel a = (backoffSleep d jit a ++ Event.query a :: rest, res) := by
  cases fuel with
  | zero => omega
  | succ f =>
    cases ho : out a with
    | ok res => exact ⟨[], res, by simp [fetchGo, ho]⟩
    | noneRes => exact ⟨[], [], by simp [fetchGo, ho]⟩
    | err m =>
      cases hc : classify (lowerStr m) with
      | transient =>
        exact ⟨(fetchGo d out jit f (a + 1)).1, (fetchGo d out jit f (a + 1)).2,
          by simp [fetchGo, ho, hc]⟩
      | rateLimit =>
        exact ⟨Event.sleep (2 * d) :: (fetchGo d out jit f (a + 1)).1,
          (fetchGo d out jit f (a + 1)).2, by simp [fetchGo, ho, hc]⟩
      | other =>
        by_cases ha : 2 ≤ a
        · exact ⟨[], [], by simp [fetchGo, ho, hc, ha]⟩
        · exact ⟨(fetchGo d out jit f (a + 1)).1, (fetchGo d out jit f (a + 1)).2,
            by simp [fetchGo, ho, hc, ha]⟩

lemma fetchGo_query_range (d : ℚ) (out : ℕ → Outcome) (jit : ℕ → ℚ) :
    ∀ fuel a i, Event.query i ∈ (fetchGo d out jit fuel a).1 → a ≤ i ∧ i < a + fuel := by
  intro fuel
  induction fuel with
  | zero => intro a i hi; simp [fetchGo] at hi
  | succ f ih =>
    intro a i hi
    have hpre := backoffSleep_no_query d jit a i
    cases ho : out a with
    | ok res =>
      simp only [fetchGo, ho, List.mem_append, List.mem_singleton] at hi
      rcases hi with hi | hi
      · exact absurd hi hpre
      · obtain rfl : i = a := Event.query.injEq .. ▸ hi
        omega
    | noneRes =>
      simp only [fetchGo, ho, List.mem_append, List.mem_singleton] at hi
      rcases hi with hi | hi
      · exact absurd hi hpre
      · obtain rfl : i = a := Event.query.injEq .. ▸ hi
        omega
    | err m =>
      cases hc : classify (lowerStr m) with
      | transient =>
        simp only [fetchGo, ho, hc, List.mem_append, List.mem_cons] at hi
        rcases hi with hi | hi | hi
        · exact absurd hi hpre
        · obtain rfl : i = a := Event.query.injEq .. ▸ hi
          omega
        · have := ih (a + 1) i hi
          omega
      | rateLimit =>
        simp only [fetchGo, ho, hc, List.mem_append, List.mem_cons] at hi
        rcases hi with hi | hi | hi | hi
        · exact absurd hi hpre
        · obtain rfl : i = a := Event.query.injEq .. ▸ hi
          omega
        · exact absurd hi (by simp)
        · have := ih (a + 1) i hi
          omega
      | other =>
        by_cases ha : 2 ≤ a
        · simp only [fetchGo, ho, hc, ha, if_true, List.mem_append, List.mem_singleton] at hi
          rcases hi with hi | hi
          · exact absurd hi hpre
          · obtain rfl : i = a := Event.query.injEq .. ▸ hi
            omega
        · simp only [fetchGo, ho, hc, ha, if_false, List.mem_append, List.mem_cons] at hi
          rcases hi with hi | hi | hi
          · exact absurd hi hpre
          · obtain rfl : i = a := Event.query.injEq .. ▸ hi
            omega
          · have := ih (a + 1) i hi
            omega

lemma xs_tail_sleep_lift (s : ℚ) (front xs2 xs : List Event) (k : ℕ)
    (hxs : xs = front ++ xs2)
    (h4 : 1 ≤ k → ∃ zs, xs2 = zs ++ [Event.sleep s]) :
    1 ≤ k → ∃ zs, xs = zs ++ [Event.sleep s] := by
  intro h1
  obtain ⟨zs, hz⟩ := h4 h1
  exact ⟨front ++ zs, by rw [hxs, hz, List.append_assoc]⟩

/-- Structural description of the retry trace of `fetch_from_hive_engine`:
wherever a query of attempt `k` appears in the trace, `k` lies in the
attempt window, attempt 0 opens the trace with no preceding event,
every later attempt is immediately preceded by its single backoff sleep
`d * 2^(k-1) + jit k`, a rate-limited attempt is followed directly by the
extra `2 * d` sleep (and by a further attempt while budget remains), and
no attempt index is queried twice. -/
lemma fetchGo_split (d : ℚ) (out : ℕ → Outcome) (jit : ℕ → ℚ) :
    ∀ fuel a xs k ys, (fetchGo d out jit fuel a).1 = xs ++ Event.query k :: ys →
      a ≤ k ∧ k < a + fuel ∧
      (k = 0 → xs = []) ∧
      (1 ≤ k → ∃ zs, xs = zs ++ [Event.sleep (d * 2 ^ (k - 1) + jit k)]) ∧
      ((∃ m, out k = Outcome.err m ∧ classify (lowerStr m) = ErrClass.rateLimit) →
        (∃ tl, ys = Event.sleep (2 * d) :: tl) ∧
        (k + 1 < a + fuel → Event.query (k + 1) ∈ ys)) ∧
      Event.query k ∉ ys := by
  intro fuel
  induction fuel with
  | zero =>
    intro a xs k ys h
    rw [fetchGo] at h
    exact absurd h.symm (by simp)
  | succ f ih =>
    intro a xs k ys h
    have hpre := backoffSleep_no_query d jit a
    cases ho : out a with
    | ok res =>
      simp only [fetchGo, ho] at h
      rcases split_at_query (backoffSleep d jit a) [] xs ys a k h hpre with
        ⟨hxs, hka, hys⟩ | ⟨xs2, _, hrest⟩
      · subst hka
        subst hys
        refine ⟨le_refl k, by omega, ?_, ?_, ?_, by simp⟩
        · intro h0; rw [hxs, h0, backoffSleep_zero]
        · intro h1; exact ⟨[], by rw [hxs, backoffSleep_pos d jit k (by omega)]; simp⟩
        · rintro ⟨m, hm, _⟩; rw [ho] at hm; exact absurd hm (by simp)
      · exact absurd hrest.symm (by simp)
    | noneRes =>
      simp only [fetchGo, ho] at h
      rcases split_at_query (backoffSleep d jit a) [] xs ys a k h hpre with
        ⟨hxs, hka, hys⟩ | ⟨xs2, _, hrest⟩
      · subst hka
        subst hys
        refine ⟨le_refl k, by omega, ?_, ?_, ?_, by simp⟩
        · intro h0; rw [hxs, h0, backoffSleep_zero]
        · intro h1; exact ⟨[], by rw [hxs, backoffSleep_pos d jit k (by omega)]; simp⟩
        · rintro ⟨m, hm, _⟩; rw [ho] at hm; exact absurd hm (by simp)
      · exact absurd hrest.symm (by simp)
    | err m =>
      cases hc : classify (lowerStr m) with
      | transient =>
        simp only [fetchGo, ho, hc] at h
        rcases split_at_query (backoffSleep d jit a) (fetchGo d out jit f (a + 1)).1
            xs ys a k h hpre with ⟨hxs, hka, hys⟩ | ⟨xs2, hxs, hrest⟩
        · subst hka
          refine ⟨le_refl k, by omega, ?_, ?_, ?_, ?_⟩
          · intro h0; rw [hxs, h0, backoffSleep_zero]
          · intro h1; exact ⟨[], by rw [hxs, backoffSleep_pos d jit k (by omega)]; simp⟩
          · rintro ⟨m2, hm2, hc2⟩
            rw [ho] at hm2
            injection hm2 with hmm
            rw [hmm] at hc
            rw [hc] at hc2
            exact absurd hc2 (by simp)
          · intro hmem
            rw [hys] at hmem
            have := fetchGo_query_range d out jit f (k + 1) k hmem
            omega
        · have IH := ih (a + 1) xs2 k ys hrest
          refine ⟨by omega, by omega, by omega, ?_, ?_, IH.2.2.2.2.2⟩
          · exact xs_tail_sleep_lift _ (backoffSleep d jit a ++ [Event.query a]) xs2 xs k (by rw [hxs]; simp) IH.2.2.2.1
          · intro hrl
            obtain ⟨h5a, h5b⟩ := IH.2.2.2.2.1 hrl
            exact ⟨h5a, fun hlt => h5b (by omega)⟩
      | rateLimit =>
        simp only [fetchGo, ho, hc] at h
        rcases split_at_query (backoffSleep d jit a)
            (Event.sleep (2 * d) :: (fetchGo d out jit f (a + 1)).1)
            xs ys a k h hpre with ⟨hxs, hka, hys⟩ | ⟨xs2, hxs, hrest⟩
        · subst hka
          refine ⟨le_refl k, by omega, ?_, ?_, ?_, ?_⟩
          · intro h0; rw [hxs, h0, backoffSleep_zero]
          · intro h1; exact ⟨[], by rw [hxs, backoffSleep_pos d jit k (by omega)]; simp⟩
          · intro _
            refine ⟨⟨(fetchGo d out jit f (k + 1)).1, hys⟩, fun hlt => ?_⟩
            obtain ⟨rest2, res2, heq⟩ := fetchGo_head d out jit f (k + 1) (by omega)
            rw [hys]
            refine List.mem_cons_of_mem _ ?_
            rw [heq]
            simp
          · intro hmem
            rw [hys] at hmem
            rcases List.mem_cons.mp hmem with hbad | hmem2
            · exact absurd hbad (by simp)
            · have := fetchGo_query_range d out jit f (k + 1) k hmem2
              omega
        · obtain ⟨xs3, hxs3, hres⟩ := peel_front [Event.sleep (2 * d)]
            (fetchGo d out jit f (a + 1)).1 xs2 ys k (by simpa using hrest) (by simp)
          have IH := ih (a + 1) xs3 k ys hres
          refine ⟨by omega, by omega, by omega, ?_, ?_, IH.2.2.2.2.2⟩
          · refine xs_tail_sleep_lift _
              (backoffSleep d jit a ++ Event.query a :: [Event.sleep (2 * d)]) xs3 xs k
              ?_ IH.2.2.2.1
            rw [hxs, hxs3]
            simp
          · intro hrl
            obtain ⟨h5a, h5b⟩ := IH.2.2.2.2.1 hrl
            exact ⟨h5a, fun hlt => h5b (by omega)⟩
      | other =>
        by_cases ha2 : 2 ≤ a
        · simp only [fetchGo, ho, hc, ha2, if_true] at h
          rcases split_at_query (backoffSleep d jit a) [] xs ys a k h hpre with
            ⟨hxs, hka, hys⟩ | ⟨xs2, _, hrest⟩
          · subst hka
            subst hys
            refine ⟨le_refl k, by omega, ?_, ?_, ?_, by simp⟩
            · intro h0; rw [hxs, h0, backoffSleep_zero]
            · intro h1; exact ⟨[], by rw [hxs, backoffSleep_pos d jit k (by omega)]; simp⟩
            · rintro ⟨m2, hm2, hc2⟩
              rw [ho] at hm2
              injection hm2 with hmm
              rw [hmm] at hc
              rw [hc] at hc2
              exact absurd hc2 (by simp)
          · exact absurd hrest.symm (by simp)
        · simp only [fetchGo, ho, hc, ha2, if_false] at h
          rcases split_at_query (backoffSleep d jit a) (fetchGo d out jit f (a + 1)).1
              xs ys a k h hpre with ⟨hxs, hka, hys⟩ | ⟨xs2, hxs, hrest⟩
          · subst hka
            refine ⟨le_refl k, by omega, ?_, ?_, ?_, ?_⟩
            · intro h0; rw [hxs, h0, backoffSleep_zero]
            · intro h1; exact ⟨[], by rw [hxs, backoffSleep_pos d jit k (by omega)]; simp⟩
            · rintro ⟨m2, hm2, hc2⟩
              rw [ho] at hm2
              injection hm2 with hmm
              rw [hmm] at hc
              rw [hc] at hc2
              exact absurd hc2 (by simp)
            · intro hmem
              rw [hys] at hmem
              have := fetchGo_query_range d out jit f (k + 1) k hmem
              omega
          · have IH := ih (a + 1) xs2 k ys hrest
            refine ⟨by omega, by omega, by omega, ?_, ?_, IH.2.2.2.2.2⟩
            · exact xs_tail_sleep_lift _ (backoffSleep d jit a ++ [Event.query a]) xs2 xs k (by rw [hxs]; simp) IH.2.2.2.1
            · intro hrl
              obtain ⟨h5a, h5b⟩ := IH.2.2.2.2.1 hrl
              exact ⟨h5a, fun hlt => h5b (by omega)⟩

@[simp] lemma numQueries_nil : numQueries [] = 0 := rfl

@[simp] lemma numQueries_append (l1 l2 : List Event) :
    numQueries (l1 ++ l2) = numQueries l1 + numQueries l2 := by
  simp [numQueries, List.filter_append]

@[simp] lemma numQueries_query_cons (b : ℕ) (t : List Event) :
    numQueries (Event.query b :: t) = numQueries t + 1 := by
  simp [numQueries, List.filter_cons]

@[simp] lemma numQueries_sleep_cons (s : ℚ) (t : List Event) :
    numQueries (Event.sleep s :: t) = numQueries t := by
  simp [numQueries, List.filter_cons]

@[simp] lemma numQueries_backoff (d : ℚ) (jit : ℕ → ℚ) (a : ℕ) :
    numQueries (backoffSleep d jit a) = 0 := by
  by_cases h : a = 0 <;> simp [backoffSleep, h, numQueries]

/-- When every attempt in the window raises a transient-classified error,
the loop queries on every attempt of the budget and returns empty. -/
lemma fetchGo_transient_all (d : ℚ) (out : ℕ → Outcome) (jit : ℕ → ℚ) :
    ∀ fuel a,
      (∀ k, a ≤ k → k < a + fuel →
        ∃ m, out k = Outcome.err m ∧ classify (lowerStr m) = ErrClass.transient) →
      numQueries (fetchGo d out jit fuel a).1 = fuel ∧ (fetchGo d out jit fuel a).2 = [] := by
  intro fuel
  induction fuel with
  | zero => intro a _; simp [fetchGo]
  | succ f ih =>
    intro a h
    obtain ⟨m, hm, hc⟩ := h a (le_refl a) (by omega)
    have IH := ih (a + 1) (fun k hk1 hk2 => h k (by omega) (by omega))
    simp only [fetchGo, hm, hc]
    constructor
    · simp [IH.1]
    · exact IH.2

/-- When every attempt raises a non-transient, non-rate-limit error, the
loop aborts after the three attempts 0, 1, 2 even with a larger budget. -/
lemma fetchGo_other_all (d : ℚ) (out : ℕ → Outcome) (jit : ℕ → ℚ)
    (h : ∀ k, ∃ m, out k = Outcome.err m ∧ classify (lowerStr m) = ErrClass.other) (f : ℕ) :
    numQueries (fetchGo d out jit (f + 3) 0).1 = 3 := by
  obtain ⟨m0, hm0, hc0⟩ := h 0
  obtain ⟨m1, hm1, hc1⟩ := h 1
  obtain ⟨m2, hm2, hc2⟩ := h 2
  have e3 : f + 3 = (f + 2) + 1 := by omega
  have e2 : f + 2 = (f + 1) + 1 := by omega
  have e1 : f + 1 = f + 1 := rfl
  rw [e3, fetchGo]
  simp only [hm0, hc0]
  norm_num
  rw [e2, fetchGo]
  simp only [hm1, hc1]
  norm_num
  rw [fetchGo]
  simp only [hm2, hc2]
  norm_num

/-- Result of the retry loop: empty, or the payload of the first
successful non-None attempt, every earlier attempt having raised. -/
lemma fetchGo_result (d : ℚ) (out : ℕ → Outcome) (jit : ℕ → ℚ) :
    ∀ fuel a, (fetchGo d out jit fuel a).2 = [] ∨
      ∃ k res, a ≤ k ∧ k < a + fuel ∧ out k = Outcome.ok res ∧
        (∀ j, a ≤ j → j < k → ∃ m, out j = Outcome.err m) ∧
        (fetchGo d out jit fuel a).2 = res := by
  intro fuel
  induction fuel with
  | zero => intro a; left; simp [fetchGo]
  | succ f ih =>
    intro a
    cases ho : out a with
    | ok res =>
      right
      exact ⟨a, res, le_refl a, by omega, ho,
        fun j hj1 hj2 => absurd hj2 (by omega), by simp [fetchGo, ho]⟩
    | noneRes => left; simp [fetchGo, ho]
    | err m =>
      have lift : (fetchGo d out jit (f + 1) a).2 = (fetchGo d out jit f (a + 1)).2 →
          ((fetchGo d out jit f (a + 1)).2 = [] ∨
            ∃ k res, a + 1 ≤ k ∧ k < a + 1 + f ∧ out k = Outcome.ok res ∧
              (∀ j, a + 1 ≤ j → j < k → ∃ m2, out j = Outcome.err m2) ∧
              (fetchGo d out jit f (a + 1)).2 = res) →
          (fetchGo d out jit (f + 1) a).2 = [] ∨
            ∃ k res, a ≤ k ∧ k < a + (f + 1) ∧ out k = Outcome.ok res ∧
              (∀ j, a ≤ j → j < k → ∃ m2, out j = Outcome.err m2) ∧
              (fetchGo d out jit (f + 1) a).2 = res := by
        intro heq hih
        rcases hih with h0 | ⟨k, res, hk1, hk2, hok, hprev, hres⟩
        · left; rw [heq, h0]
        · right
          refine ⟨k, res, by omega, by omega, hok, ?_, by rw [heq, hres]⟩
          intro j hj1 hj2
          by_cases hja : j = a
          · exact ⟨m, hja ▸ ho⟩
          · exact hprev j (by omega) hj2
      cases hc : classify (lowerStr m) with
      | transient => exact lift (by simp [fetchGo, ho, hc]) (ih (a + 1))
      | rateLimit => exact lift (by simp [fetchGo, ho, hc]) (ih (a + 1))
      | other =>
        by_cases ha2 : 2 ≤ a
        · left; simp [fetchGo, ho, hc, ha2]
        · exact lift (by simp [fetchGo, ho, hc, ha2]) (ih (a + 1))

/-- C1: for every call of `fetch_from_hive_engine` with retry budget `N`
and base delay `d`, attempt 0 issues the remote query immediately with no
sleep, and every retry attempt `k` (1 ≤ k ≤ N-1) that occurs is
immediately preceded by exactly one sleep of `d * 2^(k-1) + j` seconds,
where `j` is the jitter value drawn from `random.uniform(0.5, 1.5)`
(modelled as an oracle whose values lie in [0.5, 1.5]); no attempt is
queried twice. -/
theorem fetch_backoff_schedule (d : ℚ) (N : ℕ) (out : ℕ → Outcome) (jit : ℕ → ℚ)
    (hjit : ∀ k, 1/2 ≤ jit k ∧ jit k ≤ 3/2) :
    (0 < N → ∃ rest, fetchEvents d N out jit = Event.query 0 :: rest) ∧
    (∀ xs k ys, fetchEvents d N out jit = xs ++ Event.query k :: ys →
      k ≤ N - 1 ∧
      (k = 0 → xs = []) ∧
      (1 ≤ k → ∃ zs j, xs = zs ++ [Event.sleep (d * 2 ^ (k - 1) + j)] ∧
        1/2 ≤ j ∧ j ≤ 3/2) ∧
      Event.query k ∉ ys) := by
  constructor
  · intro hN
    obtain ⟨rest, res, heq⟩ := fetchGo_head d out jit N 0 hN
    exact ⟨rest, by rw [fetchEvents, heq, backoffSleep_zero, List.nil_append]⟩
  · intro xs k ys h
    have hs := fetchGo_split d out jit N 0 xs k ys h
    refine ⟨by omega, hs.2.2.1, ?_, hs.2.2.2.2.2⟩
    intro h1
    obtain ⟨zs, hz⟩ := hs.2.2.2.1 h1
    exact ⟨zs, jit k, hz, (hjit k).1, (hjit k).2⟩

/-- Witness for C1 at a concrete input: base delay 3, budget 2, all
attempts raising a timeout, jitter oracle constantly 1. -/
theorem fetch_backoff_schedule_witness :
    ∃ rest,
      fetchEvents 3 2 (fun _ => Outcome.err "timeout") (fun _ => 1) = Event.query 0 :: rest :=
  (fetch_backoff_schedule 3 2 (fun _ => Outcome.err "timeout") (fun _ => 1)
    (fun _ => by norm_num)).1 (by norm_num)

/-- An attempt the retry loop raises on and then retries past: a
transient or rate-limit error, or any error at attempt index 0 or 1
(non-transient, non-rate-limit errors only abort from attempt 2 on). -/
def retriesPast (out : ℕ → Outcome) (j : ℕ) : Prop :=
  ∃ m, out j = Outcome.err m ∧
    (classify (lowerStr m) ≠ ErrClass.other ∨ j < 2)

/-- When every attempt before `k` is retried past, the loop reaches
attempt `k` and its outcome decides the result: a success returns its
payload, a None result returns the empty list. -/
lemma fetchGo_reaches (d : ℚ) (out : ℕ → Outcome) (jit : ℕ → ℚ) :
    ∀ fuel a k, a ≤ k → k < a + fuel →
      (∀ j, a ≤ j → j < k → retriesPast out j) →
      ((∀ res, out k = Outcome.ok res → (fetchGo d out jit fuel a).2 = res) ∧
        (out k = Outcome.noneRes → (fetchGo d out jit fuel a).2 = [])) := by
  intro fuel
  induction fuel with
  | zero => intro a k h1 h2 _; omega
  | succ f ih =>
    intro a k h1 h2 hpast
    by_cases hak : k = a
    · constructor
      · intro res hok
        rw [hak] at hok
        simp [fetchGo, hok]
      · intro hnone
        rw [hak] at hnone
        simp [fetchGo, hnone]
    · have hlt : a < k := by omega
      obtain ⟨m, hm, hcl⟩ := hpast a (le_refl a) hlt
      have hrec := ih (a + 1) k (by omega) (by omega)
        (fun j hj1 hj2 => hpast j (by omega) hj2)
      have heq : (fetchGo d out jit (f + 1) a).2 = (fetchGo d out jit f (a + 1)).2 := by
        cases hc : classify (lowerStr m) with
        | transient => simp [fetchGo, hm, hc]
        | rateLimit => simp [fetchGo, hm, hc]
        | other =>
          have ha2 : ¬ 2 ≤ a := by
            rcases hcl with hne | hlt2
            · exact absurd hc hne
            · omega
          simp [fetchGo, hm, hc, ha2]
      constructor
      · intro res hok
        rw [heq]
        exact hrec.1 res hok
      · intro hnone
        rw [heq]
        exact hrec.2 hnone

/-- When every attempt in the window raises, the loop returns the empty
list, whether it exhausts the budget or aborts early on a
non-transient error. -/
lemma fetchGo_allerr (d : ℚ) (out : ℕ → Outcome) (jit : ℕ → ℚ) :
    ∀ fuel a, (∀ j, a ≤ j → j < a + fuel → ∃ m, out j = Outcome.err m) →
      (fetchGo d out jit fuel a).2 = [] := by
  intro fuel
  induction fuel with
  | zero => intro a _; simp [fetchGo]
  | succ f ih =>
    intro a h
    obtain ⟨m, hm⟩ := h a (le_refl a) (by omega)
    have IH := ih (a + 1) (fun j hj1 hj2 => h j (by omega) (by omega))
    cases hc : classify (lowerStr m) with
    | transient => simp [fetchGo, hm, hc, IH]
    | rateLimit => simp [fetchGo, hm, hc, IH]
    | other =>
      by_cases ha2 : 2 ≤ a
      · simp [fetchGo, hm, hc, ha2]
      · simp [fetchGo, hm, hc, ha2, IH]

/-- C2: `fetch_from_hive_engine` is total (the embedding returns a plain
value for every outcome sequence, modelling that it never raises);
when every attempt raises it returns the empty list; when the loop
reaches an attempt whose provider call returns None (every earlier
attempt raised and was retried past) it returns the empty list; when
the loop reaches a successful non-None attempt it returns that payload
unchanged; and any run returns either the empty list or the payload of
the first successful attempt, unchanged. -/
theorem fetch_result_first_success (d : ℚ) (N : ℕ) (out : ℕ → Outcome) (jit : ℕ → ℚ) :
    ((∀ j, j < N → ∃ m, out j = Outcome.err m) → fetchResult d N out jit = []) ∧
    (∀ k, k < N → (∀ j, j < k → retriesPast out j) → out k = Outcome.noneRes →
      fetchResult d N out jit = []) ∧
    (∀ k res, k < N → (∀ j, j < k → retriesPast out j) → out k = Outcome.ok res →
      fetchResult d N out jit = res) ∧
    (fetchResult d N out jit = [] ∨
      ∃ k res, k < N ∧ out k = Outcome.ok res ∧
        (∀ j, j < k → ∃ m, out j = Outcome.err m) ∧
        fetchResult d N out jit = res) := by
  refine ⟨?_, ?_, ?_, ?_⟩
  · intro h
    exact fetchGo_allerr d out jit N 0 (fun j _ hj2 => h j (by omega))
  · intro k hk hpast hnone
    exact (fetchGo_reaches d out jit N 0 k (by omega) (by omega)
      (fun j _ hj2 => hpast j hj2)).2 hnone
  · intro k res hk hpast hok
    exact (fetchGo_reaches d out jit N 0 k (by omega) (by omega)
      (fun j _ hj2 => hpast j hj2)).1 res hok
  · rcases fetchGo_result d out jit N 0 with h | ⟨k, res, _, hk2, hok, hprev, hres⟩
    · left; exact h
    · right; exact ⟨k, res, by omega, hok, fun j hj => hprev j (by omega) hj, hres⟩

/-- Witness for C2 at a concrete input exercising the success case: a
timeout on attempt 0 is retried past and the success payload [7] of
attempt 1 is returned unchanged. -/
theorem fetch_result_first_success_witness :
    fetchResult 3 5
      (fun j => if j = 0 then Outcome.err "timeout" else Outcome.ok [7])
      (fun _ => 1) = [7] :=
  (fetch_result_first_success 3 5
      (fun j => if j = 0 then Outcome.err "timeout" else Outcome.ok [7])
      (fun _ => 1)).2.2.1 1 [7] (by norm_num)
    (fun j hj => ⟨"timeout", by simp [show j = 0 by omega], Or.inr (by omega)⟩)
    (by simp)

/-- C3: transient errors (service unavailable / 503 / timeout /
connection) are retried until the whole budget is exhausted; a
rate-limited attempt (rate limit / 429) is followed by an extra fixed
sleep of `2 * d` on top of the normal backoff and is retried while budget
remains; when every attempt raises any other error the loop aborts after
the three attempts 0, 1, 2 even when the budget is larger. -/
theorem fetch_error_classes (d : ℚ) (N : ℕ) (out : ℕ → Outcome) (jit : ℕ → ℚ) :
    ((∀ k, k < N →
        ∃ m, out k = Outcome.err m ∧ classify (lowerStr m) = ErrClass.transient) →
      numQueries (fetchEvents d N out jit) = N ∧ fetchResult d N out jit = []) ∧
    (∀ xs k ys, fetchEvents d N out jit = xs ++ Event.query k :: ys →
      (∃ m, out k = Outcome.err m ∧ classify (lowerStr m) = ErrClass.rateLimit) →
      (∃ tl, ys = Event.sleep (2 * d) :: tl) ∧ (k + 1 < N → Event.query (k + 1) ∈ ys)) ∧
    ((∀ k, ∃ m, out k = Outcome.err m ∧ classify (lowerStr m) = ErrClass.other) → 3 ≤ N →
      numQueries (fetchEvents d N out jit) = 3) := by
  refine ⟨?_, ?_, ?_⟩
  · intro h
    exact fetchGo_transient_all d out jit N 0 (fun k hk1 hk2 => h k (by omega))
  · intro xs k ys h hrl
    have hs := fetchGo_split d out jit N 0 xs k ys h
    obtain ⟨h5a, h5b⟩ := hs.2.2.2.2.1 hrl
    exact ⟨h5a, fun hlt => h5b (by omega)⟩
  · intro h hN
    obtain ⟨f, rfl⟩ : ∃ f, N = f + 3 := ⟨N - 3, by omega⟩
    exact fetchGo_other_all d out jit h f

/-- Witness for C3 at a concrete input: with budget 4 and every attempt
raising "timeout", all four attempts are queried and the result is
empty. -/
theorem fetch_error_classes_witness :
    numQueries (fetchEvents 3 4 (fun _ => Outcome.err "timeout") (fun _ => 1)) = 4 ∧
    fetchResult 3 4 (fun _ => Outcome.err "timeout") (fun _ => 1) = [] :=
  (fetch_error_classes 3 4 (fun _ => Outcome.err "timeout") (fun _ => 1)).1
    (fun k _ => ⟨"timeout", rfl, by decide⟩)

end HiveEngineUtils

namespace CacheUtils

/-- Expiration window of the durable caches (cache_utils.py line 10). -/
def CACHE_EXPIRATION_SECONDS : ℚ := 900

/-- First-match lookup in an association list, modelling Python dict
access (`entry["timestamp"]`) and key tests (`"timestamp" in entry`). -/
def aGet : List (String × ℚ) → String → Option ℚ
  | [], _ => none
  | (k, v) :: rest, key => if k = key then some v else aGet rest key

/-- Function `is_cache_valid` (cache_utils.py lines 54-58): false on a falsy
(empty) entry or one lacking a timestamp, otherwise the strict test
`now - timestamp < expiration`. -/
def is_cache_valid (now : ℚ) (entry : List (String × ℚ)) (expiration : ℚ) : Bool :=
  if entry.isEmpty then false
  else
    match aGet entry "timestamp" with
    | none => false
    | some ts => decide (now - ts < expiration)

/-- Deletion test of `clear_caches` (cache_utils.py lines 65-66): an
entry is deleted when it lacks a timestamp or its age strictly exceeds
the window. -/
def expiredEntry (now : ℚ) (v : List (String × ℚ)) : Bool :=
  match aGet v "timestamp" with
  | none => true
  | some ts => decide (now - ts > CACHE_EXPIRATION_SECONDS)

/-- The in-place key deletion loop of `remove_expired`, as a filter
(dict keys are unique). -/
def remove_expired (now : ℚ) (cache : List (String × List (String × ℚ))) :
    List (String × List (String × ℚ)) :=
  cache.filter (fun kv => ! expiredEntry now kv.2)

/-- The three durable caches of cache_utils.py. -/
structure CacheState where
  price_cache : List (String × List (String × ℚ))
  market_cache : List (String × List (String × ℚ))
  diesel_cache : List (String × List (String × ℚ))

/-- Function `clear_caches` (cache_utils.py lines 60-73), sweeping all three
caches (the trailing `save_cache()` is durable-storage I/O, outside the
state modelled here). -/
def clear_caches (now : ℚ) (st : CacheState) : CacheState :=
  ⟨remove_expired now st.price_cache, remove_expired now st.market_cache,
    remove_expired now st.diesel_cache⟩

lemma not_expired_iff (now : ℚ) (v : List (String × ℚ)) :
    expiredEntry now v = false ↔
      ∃ ts, aGet v "timestamp" = some ts ∧ now - ts ≤ 900 := by
  cases hA : aGet v "timestamp" with
  | none => simp [expiredEntry, hA]
  | some ts => simp [expiredEntry, hA, CACHE_EXPIRATION_SECONDS, not_lt]

/-- C4: `is_cache_valid` returns true iff the entry is non-empty, has a
timestamp field, and its age is strictly below 900 seconds; in
particular an entry aged exactly 900 seconds or more is reported
invalid (treated as absent). -/
theorem cache_validity (now : ℚ) (entry : List (String × ℚ)) :
    (is_cache_valid now entry CACHE_EXPIRATION_SECONDS = true ↔
      entry ≠ [] ∧ ∃ ts, aGet entry "timestamp" = some ts ∧ now - ts < 900) ∧
    (∀ ts, aGet entry "timestamp" = some ts → 900 ≤ now - ts →
      is_cache_valid now entry CACHE_EXPIRATION_SECONDS = false) := by
  constructor
  · rcases entry with _ | ⟨⟨k, v⟩, rest⟩
    · simp [is_cache_valid, aGet]
    · cases hA : aGet ((k, v) :: rest) "timestamp" with
      | none => simp [is_cache_valid, hA]
      | some ts => simp [is_cache_valid, hA, CACHE_EXPIRATION_SECONDS]
  · intro ts hts hold
    rcases entry with _ | ⟨⟨k, v⟩, rest⟩
    · simp [is_cache_valid]
    · simpa [is_cache_valid, hts, CACHE_EXPIRATION_SECONDS, not_lt] using hold

/-- Witness for C4 at a concrete input: a one-field entry aged 100
seconds is valid. -/
theorem cache_validity_witness :
    is_cache_valid 200 [("timestamp", (100 : ℚ))] CACHE_EXPIRATION_SECONDS = true :=
  (cache_validity 200 [("timestamp", (100 : ℚ))]).1.mpr
    ⟨by simp, 100, by simp [aGet], by norm_num⟩

/-- C5 counterexample: an entry whose age at sweep time is exactly 900
seconds is kept by `clear_caches` (the code deletes only entries
strictly older than the window), refuting the claim that every entry of
age ≥ 900 seconds is removed. -/
theorem clear_caches_cex :
    (1000 : ℚ) - 100 ≥ 900 ∧
    ("A", [("timestamp", (100 : ℚ))]) ∈
      (clear_caches 1000 ⟨[("A", [("timestamp", (100 : ℚ))])], [], []⟩).price_cache := by
  constructor
  · norm_num
  · simp [clear_caches, remove_expired, expiredEntry, aGet, CACHE_EXPIRATION_SECONDS]
    norm_num

/-- C5 (amended): `clear_caches` removes exactly the entries lacking a
timestamp or strictly older than 900 seconds; an entry survives the
sweep iff it was present and its age is at most 900 seconds, in each of
the three caches. -/
theorem clear_caches_sweep (now : ℚ) (st : CacheState) :
    (∀ k v, (k, v) ∈ (clear_caches now st).price_cache ↔
      ((k, v) ∈ st.price_cache ∧
        ∃ ts, aGet v "timestamp" = some ts ∧ now - ts ≤ 900)) ∧
    (∀ k v, (k, v) ∈ (clear_caches now st).market_cache ↔
      ((k, v) ∈ st.market_cache ∧
        ∃ ts, aGet v "timestamp" = some ts ∧ now - ts ≤ 900)) ∧
    (∀ k v, (k, v) ∈ (clear_caches now st).diesel_cache ↔
      ((k, v) ∈ st.diesel_cache ∧
        ∃ ts, aGet v "timestamp" = some ts ∧ now - ts ≤ 900)) := by
  have key : ∀ (k : String) (v : List (String × ℚ))
      (l : List (String × List (String × ℚ))),
      (k, v) ∈ remove_expired now l ↔
        ((k, v) ∈ l ∧ ∃ ts, aGet v "timestamp" = some ts ∧ now - ts ≤ 900) := by
    intro k v l
    rw [remove_expired, List.mem_filter]
    simp only [Bool.not_eq_true']
    rw [not_expired_iff]
  exact ⟨fun k v => key k v _, fun k v => key k v _, fun k v => key k v _⟩

/-- Witness for C5 at a concrete input: an entry aged 500 seconds
survives the sweep. -/
theorem clear_caches_sweep_witness :
    ("B", [("timestamp", (500 : ℚ))]) ∈
      (clear_caches 1000 ⟨[("B", [("timestamp", (500 : ℚ))])], [], []⟩).price_cache :=
  ((clear_caches_sweep 1000 ⟨[("B", [("timestamp", (500 : ℚ))])], [], []⟩).1 "B"
      [("timestamp", (500 : ℚ))]).mpr ⟨by simp, 500, by simp [aGet], by norm_num⟩

end CacheUtils

namespace HiveEngineUtils

/-- One record of the "balances" feed consumed by `get_token_holdings`
(hive_engine_utils.py lines 249, 255-261): `stake` and `delegations` are
read with `.get(..., 0)`, so they may be absent. -/
structure BalRec where
  symbol : String
  balance : ℚ
  stake : Option ℚ
  delegations : Option ℚ
  deriving DecidableEq

/-- One record of the "delegations"-from feed (lines 250, 263-267). -/
structure DelRec where
  symbol : String
  quantity : ℚ
  deriving DecidableEq

/-- Per-symbol holdings entry; the defaultdict default is `⟨0, 0, 0⟩`. -/
structure Holding where
  liquid : ℚ
  staked : ℚ
  delegated_away : ℚ
  deriving DecidableEq

/-- Read access on the result defaultdict: lookup or the default entry. -/
def hGet : List (String × Holding) → String → Holding
  | [], _ => ⟨0, 0, 0⟩
  | (k, h) :: rest, s => if k = s then h else hGet rest s

/-- Write access on the result dict: replace the entry in place or
append a new one. -/
def hSet : List (String × Holding) → String → Holding → List (String × Holding)
  | [], s, h => [(s, h)]
  | (k, h0) :: rest, s, h =>
    if k = s then (k, h) :: rest else (k, h0) :: hSet rest s h

/-- First loop of `get_token_holdings` (lines 255-261): for each balances
record whose symbol is requested, assign liquid/staked/delegated_away
from the record (`.get` defaults applied). -/
def balancesPass (tokens : List String) :
    List BalRec → List (String × Holding) → List (String × Holding)
  | [], m => m
  | b :: rest, m =>
    balancesPass tokens rest
      (if b.symbol ∈ tokens then
        hSet m b.symbol ⟨b.balance, b.stake.getD 0, b.delegations.getD 0⟩
      else m)

/-- Second loop (lines 263-267): for each delegation-out record whose
symbol is requested, add its quantity to delegated_away. -/
def delegationsPass (tokens : List String) :
    List DelRec → List (String × Holding) → List (String × Holding)
  | [], m => m
  | d :: rest, m =>
    delegationsPass tokens rest
      (if d.symbol ∈ tokens then
        hSet m d.symbol
          ⟨(hGet m d.symbol).liquid, (hGet m d.symbol).staked,
            (hGet m d.symbol).delegated_away + d.quantity⟩
      else m)

/-- Function `get_token_holdings` (lines 237-269), with the two feeds already
fetched (the fetches go through `fetch_from_hive_engine`, modelled
above). -/
def get_token_holdings (liquid : List BalRec) (delegated : List DelRec)
    (tokens : List String) : List (String × Holding) :=
  delegationsPass tokens delegated (balancesPass tokens liquid [])

/-- The `delegations` field of the unique balances record for a symbol
(0 when no record or field absent). -/
def balDeleg (liquid : List BalRec) (s : String) : ℚ :=
  match liquid.find? (fun b => b.symbol == s) with
  | some b => b.delegations.getD 0
  | none => 0

/-- Sum of `quantity` over all delegation-out records of a symbol. -/
def sumDelegQ (delegated : List DelRec) (s : String) : ℚ :=
  ((delegated.filter (fun d => d.symbol == s)).map DelRec.quantity).sum

/-- Keys of the result dict are pairwise distinct. -/
def keysUnique (m : List (String × Holding)) : Prop :=
  m.Pairwise (fun a b => a.1 ≠ b.1)

lemma hSet_mem {m : List (String × Holding)} {s s2 : String} {h h2 : Holding}
    (hx : (s2, h2) ∈ hSet m s h) : (s2, h2) ∈ m ∨ s2 = s := by
  induction m with
  | nil =>
    have heq := List.mem_singleton.mp hx
    injection heq with e1 e2
    exact Or.inr e1
  | cons kh rest ih =>
    obtain ⟨k, h0⟩ := kh
    by_cases hk : k = s
    · rw [hSet, if_pos hk] at hx
      rcases List.mem_cons.mp hx with heq | hx2
      · injection heq with e1 e2
        exact Or.inr (e1.trans hk)
      · exact Or.inl (List.mem_cons_of_mem _ hx2)
    · rw [hSet, if_neg hk] at hx
      rcases List.mem_cons.mp hx with heq | hx2
      · rw [heq]
        exact Or.inl (List.mem_cons_self _ _)
      · rcases ih hx2 with hx3 | hx3
        · exact Or.inl (List.mem_cons_of_mem _ hx3)
        · exact Or.inr hx3

lemma hGet_hSet_same (m : List (String × Holding)) (s : String) (h : Holding) :
    hGet (hSet m s h) s = h := by
  induction m with
  | nil => simp [hSet, hGet]
  | cons kh rest ih =>
    obtain ⟨k, h0⟩ := kh
    by_cases hk : k = s
    · simp [hSet, hGet, hk]
    · simp [hSet, hGet, hk, ih]

lemma hGet_hSet_other (m : List (String × Holding)) (s s2 : String) (h : Holding)
    (hne : s2 ≠ s) : hGet (hSet m s h) s2 = hGet m s2 := by
  induction m with
  | nil => simp [hSet, hGet, Ne.symm hne]
  | cons kh rest ih =>
    obtain ⟨k, h0⟩ := kh
    by_cases hk : k = s
    · by_cases hk2 : k = s2
      · exact absurd (hk2.symm.trans hk) hne
      · simp [hSet, hGet, hk, hk2, Ne.symm hne]
    · simp only [hSet, hk, if_false]
      by_cases hk2 : k = s2
      · simp [hGet, hk2]
      · simp [hGet, hk2, ih]

lemma hSet_keysUnique {m : List (String × Holding)} {s : String} {h : Holding}
    (hu : keysUnique m) : keysUnique (hSet m s h) := by
  induction m with
  | nil => simp [hSet, keysUnique]
  | cons kh rest ih =>
    obtain ⟨k, h0⟩ := kh
    rw [keysUnique, List.pairwise_cons] at hu
    by_cases hk : k = s
    · rw [hSet, if_pos hk, keysUnique, List.pairwise_cons]
      exact ⟨fun x hx => hu.1 x hx, hu.2⟩
    · rw [hSet, if_neg hk, keysUnique, List.pairwise_cons]
      refine ⟨?_, ih hu.2⟩
      intro x hx
      obtain ⟨x1, x2⟩ := x
      rcases hSet_mem hx with hx2 | hx2
      · exact hu.1 (x1, x2) hx2
      · show k ≠ x1
        rw [hx2]
        exact hk

lemma mem_hGet {m : List (String × Holding)} {s : String} {h : Holding}
    (hu : keysUnique m) (hm : (s, h) ∈ m) : hGet m s = h := by
  induction m with
  | nil => simp at hm
  | cons kh rest ih =>
    obtain ⟨k, h0⟩ := kh
    rw [keysUnique, List.pairwise_cons] at hu
    rcases List.mem_cons.mp hm with heq | hm2
    · injection heq with h1 h2
      simp [hGet, h1.symm, h2]
    · by_cases hk : k = s
      · exact absurd (hk ▸ rfl) (hu.1 (s, h) hm2)
      · simp only [hGet, hk, if_false]
        exact ih hu.2 hm2


lemma sumDelegQ_cons (d : DelRec) (rest : List DelRec) (s : String) :
    sumDelegQ (d :: rest) s =
      (if d.symbol = s then d.quantity else 0) + sumDelegQ rest s := by
  by_cases hds : d.symbol = s <;> simp [sumDelegQ, List.filter_cons, hds]

lemma balancesPass_mem (tokens : List String) :
    ∀ (l : List BalRec) (m : List (String × Holding)) (x : String × Holding),
      x ∈ balancesPass tokens l m → x ∈ m ∨ x.1 ∈ tokens := by
  intro l
  induction l with
  | nil =>
    intro m x hx
    rw [balancesPass] at hx
    exact Or.inl hx
  | cons b rest ih =>
    intro m x hx
    rw [balancesPass] at hx
    by_cases hb : b.symbol ∈ tokens
    · rw [if_pos hb] at hx
      rcases ih _ x hx with hx2 | hx2
      · obtain ⟨x1, x2⟩ := x
        rcases hSet_mem hx2 with hx3 | hx3
        · exact Or.inl hx3
        · refine Or.inr ?_
          show x1 ∈ tokens
          rw [hx3]
          exact hb
      · exact Or.inr hx2
    · rw [if_neg hb] at hx
      exact ih _ x hx

lemma delegationsPass_mem (tokens : List String) :
    ∀ (l : List DelRec) (m : List (String × Holding)) (x : String × Holding),
      x ∈ delegationsPass tokens l m → x ∈ m ∨ x.1 ∈ tokens := by
  intro l
  induction l with
  | nil =>
    intro m x hx
    rw [delegationsPass] at hx
    exact Or.inl hx
  | cons d rest ih =>
    intro m x hx
    rw [delegationsPass] at hx
    by_cases hd : d.symbol ∈ tokens
    · rw [if_pos hd] at hx
      rcases ih _ x hx with hx2 | hx2
      · obtain ⟨x1, x2⟩ := x
        rcases hSet_mem hx2 with hx3 | hx3
        · exact Or.inl hx3
        · refine Or.inr ?_
          show x1 ∈ tokens
          rw [hx3]
          exact hd
      · exact Or.inr hx2
    · rw [if_neg hd] at hx
      exact ih _ x hx

lemma balancesPass_keysUnique (tokens : List String) :
    ∀ (l : List BalRec) (m : List (String × Holding)), keysUnique m →
      keysUnique (balancesPass tokens l m) := by
  intro l
  induction l with
  | nil => intro m hu; rw [balancesPass]; exact hu
  | cons b rest ih =>
    intro m hu
    rw [balancesPass]
    by_cases hb : b.symbol ∈ tokens
    · rw [if_pos hb]; exact ih _ (hSet_keysUnique hu)
    · rw [if_neg hb]; exact ih _ hu

lemma delegationsPass_keysUnique (tokens : List String) :
    ∀ (l : List DelRec) (m : List (String × Holding)), keysUnique m →
      keysUnique (delegationsPass tokens l m) := by
  intro l
  induction l with
  | nil => intro m hu; rw [delegationsPass]; exact hu
  | cons d rest ih =>
    intro m hu
    rw [delegationsPass]
    by_cases hd : d.symbol ∈ tokens
    · rw [if_pos hd]; exact ih _ (hSet_keysUnique hu)
    · rw [if_neg hd]; exact ih _ hu

lemma balancesPass_hGet_absent (tokens : List String) :
    ∀ (l : List BalRec) (m : List (String × Holding)) (s : String),
      (∀ b ∈ l, b.symbol ≠ s) →
      hGet (balancesPass tokens l m) s = hGet m s := by
  intro l
  induction l with
  | nil => intro m s _; rw [balancesPass]
  | cons b rest ih =>
    intro m s hns
    rw [balancesPass]
    rw [ih _ s (fun b2 hb2 => hns b2 (List.mem_cons_of_mem b hb2))]
    by_cases hb : b.symbol ∈ tokens
    · rw [if_pos hb]
      exact hGet_hSet_other m b.symbol s _ (Ne.symm (hns b (List.mem_cons_self b rest)))
    · rw [if_neg hb]

lemma balancesPass_hGet (tokens : List String) :
    ∀ (l : List BalRec) (m : List (String × Holding)) (s : String),
      l.Pairwise (fun b1 b2 => b1.symbol ≠ b2.symbol) → s ∈ tokens →
      hGet (balancesPass tokens l m) s =
        match l.find? (fun b => b.symbol == s) with
        | some b => ⟨b.balance, b.stake.getD 0, b.delegations.getD 0⟩
        | none => hGet m s := by
  intro l
  induction l with
  | nil =>
    intro m s _ _
    rw [balancesPass]
    rfl
  | cons b rest ih =>
    intro m s hpw hst
    rw [List.pairwise_cons] at hpw
    rw [balancesPass]
    by_cases hbs : b.symbol = s
    · have hfind : (b :: rest).find? (fun b2 => b2.symbol == s) = some b := by
        rw [List.find?_cons_of_pos _ (by simp [hbs])]
      rw [hfind, if_pos (by rw [hbs]; exact hst)]
      rw [balancesPass_hGet_absent tokens rest _ s
        (fun b2 hb2 he => (hpw.1 b2 hb2) (hbs.trans he.symm))]
      rw [hbs, hGet_hSet_same]
    · have hfind : (b :: rest).find? (fun b2 => b2.symbol == s) =
          rest.find? (fun b2 => b2.symbol == s) := by
        rw [List.find?_cons_of_neg _ (by simp [hbs])]
      rw [hfind]
      by_cases hb : b.symbol ∈ tokens
      · rw [if_pos hb, ih _ s hpw.2 hst]
        cases hf : rest.find? (fun b2 => b2.symbol == s) with
        | some b2 => rfl
        | none => exact hGet_hSet_other m b.symbol s _ (fun he => hbs he.symm)
      · rw [if_neg hb]
        exact ih m s hpw.2 hst

lemma delegationsPass_hGet (tokens : List String) :
    ∀ (l : List DelRec) (m : List (String × Holding)) (s : String), s ∈ tokens →
      (hGet (delegationsPass tokens l m) s).delegated_away =
        (hGet m s).delegated_away + sumDelegQ l s := by
  intro l
  induction l with
  | nil => intro m s _; rw [delegationsPass]; simp [sumDelegQ]
  | cons d rest ih =>
    intro m s hst
    rw [delegationsPass]
    by_cases hd : d.symbol ∈ tokens
    · rw [if_pos hd, ih _ s hst, sumDelegQ_cons]
      by_cases hds : d.symbol = s
      · rw [if_pos hds, ← hds, hGet_hSet_same]
        ring
      · rw [if_neg hds, hGet_hSet_other m d.symbol s _ (fun he => hds he.symm)]
        ring
    · rw [if_neg hd, ih m s hst, sumDelegQ_cons]
      have hds : d.symbol ≠ s := fun he => hd (he.symm ▸ hst)
      rw [if_neg hds]
      ring

/-- C7: the map returned by `get_token_holdings` contains no symbol
outside the requested set, and for every symbol present its
`delegated_away` equals the `delegations` field of its (unique) balances
record plus the sum of the quantities of all delegation-out records for
that symbol. The balances feed is keyed by symbol, so its records carry
pairwise distinct symbols. -/
theorem token_holdings_merge (liquid : List BalRec) (delegated : List DelRec)
    (tokens : List String)
    (huniq : liquid.Pairwise (fun b1 b2 => b1.symbol ≠ b2.symbol)) :
    (∀ s h, (s, h) ∈ get_token_holdings liquid delegated tokens → s ∈ tokens) ∧
    (∀ s h, (s, h) ∈ get_token_holdings liquid delegated tokens →
      h.delegated_away = balDeleg liquid s + sumDelegQ delegated s) := by
  have hkeys : keysUnique (get_token_holdings liquid delegated tokens) :=
    delegationsPass_keysUnique tokens delegated _
      (balancesPass_keysUnique tokens liquid [] (by simp [keysUnique]))
  have hmemtk : ∀ s h, (s, h) ∈ get_token_holdings liquid delegated tokens →
      s ∈ tokens := by
    intro s h hm
    rcases delegationsPass_mem tokens delegated _ (s, h) hm with hm2 | htk
    · rcases balancesPass_mem tokens liquid [] (s, h) hm2 with hm3 | htk
      · simp at hm3
      · exact htk
    · exact htk
  refine ⟨hmemtk, ?_⟩
  intro s h hm
  have hstk := hmemtk s h hm
  have hh : hGet (get_token_holdings liquid delegated tokens) s = h :=
    mem_hGet hkeys hm
  have h2 := delegationsPass_hGet tokens delegated (balancesPass tokens liquid []) s hstk
  rw [get_token_holdings] at hh
  rw [hh] at h2
  rw [h2, balancesPass_hGet tokens liquid [] s huniq hstk]
  simp only [balDeleg]
  cases hf : liquid.find? (fun b => b.symbol == s) with
  | some b => rfl
  | none => rfl

/-- Witness for C7 at a concrete input: one balances record for LEO with
delegations 10, delegation-out records for LEO (5) and an unrequested
SPS (7), requested set {LEO}. -/
theorem token_holdings_merge_witness :
    (∀ s h, (s, h) ∈ get_token_holdings
        [⟨"LEO", 100, some 50, some 10⟩] [⟨"LEO", 5⟩, ⟨"SPS", 7⟩] ["LEO"] →
      s ∈ ["LEO"]) ∧
    (∀ s h, (s, h) ∈ get_token_holdings
        [⟨"LEO", 100, some 50, some 10⟩] [⟨"LEO", 5⟩, ⟨"SPS", 7⟩] ["LEO"] →
      h.delegated_away = balDeleg [⟨"LEO", 100, some 50, some 10⟩] s +
        sumDelegQ [⟨"LEO", 5⟩, ⟨"SPS", 7⟩] s) :=
  token_holdings_merge _ _ _ (by simp)


/-- One trade record of the trade-history feed: `price`, `volume` (a
numeric field; Python truthiness excludes a zero volume from the sum,
which leaves the sum unchanged), `timestamp` in UNIX seconds. -/
structure Trade where
  price : ℚ
  volume : ℚ
  timestamp : ℤ

/-- Outcome of the whole trade-history pagination of one attempt of
`get_market_info` (lines 145-154): the accumulated `all_trades` list, or
the exception raised during pagination. -/
inductive TradesOutcome where
  | ok (trades : List Trade)
  | err (msg : String)

/-- Function `get_volume_since` (lines 83-87). -/
def get_volume_since (now : ℤ) (trades : List Trade) (ago : ℤ) : ℚ :=
  ((trades.filter (fun t => decide (t.volume ≠ 0 ∧ now - ago ≤ t.timestamp))).map
    Trade.volume).sum

/-- Function `get_24h_volume` (lines 89-91). -/
def get_24h_volume (now : ℤ) (trades : List Trade) : ℚ :=
  get_volume_since now trades 86400

/-- Lookup in the process-wide in-memory memo `market_cache` of
hive_engine_utils.py (line 17): symbol → (price, volume) pairs, no
timestamps. -/
def memoLookup : List (String × (ℚ × ℚ)) → String → Option (ℚ × ℚ)
  | [], _ => none
  | (k, v) :: rest, s => if k = s then some v else memoLookup rest s

/-- Write `market_cache[symbol] = value`: replace in place or append. -/
def memoInsert : List (String × (ℚ × ℚ)) → String → (ℚ × ℚ) → List (String × (ℚ × ℚ))
  | [], s, v => [(s, v)]
  | (k, v0) :: rest, s, v =>
    if k = s then (k, v) :: rest else (k, v0) :: memoInsert rest s v

/-- Order-book probe of `get_market_info` (lines 171-194): books are the
price fields of `get_buy_book` / `get_sell_book` at depth 1; a price is
resolved only when the combined price is positive, and the volume
returned with it is 0. -/
def orderBookProbe (buyBook sellBook : List ℚ) : Option (ℚ × ℚ) :=
  let p1 : ℚ := match buyBook with | [] => 0 | b :: _ => b
  let p2 : ℚ :=
    match sellBook with
    | [] => p1
    | s :: _ => if p1 = 0 then s else (p1 + s) / 2
  if p2 > 0 then some (p2, 0) else none

/-- Oracle for the remote calls of one `get_market_info` invocation:
initial metrics lookup (None models both an empty result and a raised
error, fields with `.get` defaults applied), per-attempt trade-history
outcome, depth-1 order books (which may raise), direct buyBook/sellBook
table rows, and the final metrics fallback. -/
structure GmiOracle where
  metrics1 : Option (ℚ × ℚ)
  tradesAt : ℕ → TradesOutcome
  buyBook : Except String (List ℚ)
  sellBook : Except String (List ℚ)
  directBuy : List ℚ
  directSell : List ℚ
  metrics2 : Option (ℚ × ℚ)

/-- Final metrics fallback and give-up value of `get_market_info`
(lines 221-235): a positive `lastPrice` is returned with volume 0,
otherwise the memoized give-up value (0, 0). -/
def gmiAfter (o : GmiOracle) (sym : String) (cache : List (String × (ℚ × ℚ)))
    (calls : ℕ) : (ℚ × ℚ) × List (String × (ℚ × ℚ)) × ℕ :=
  match o.metrics2 with
  | some (lp, _) =>
    if lp > 0 then ((lp, 0), memoInsert cache sym (lp, 0), calls + 1)
    else ((0, 0), memoInsert cache sym (0, 0), calls + 1)
  | none => ((0, 0), memoInsert cache sym (0, 0), calls + 1)

/-- Direct market-table lookup (lines 199-214): buyBook row first, then
sellBook row; a positive price field resolves with volume 0. -/
def gmiDirect (o : GmiOracle) (sym : String) (cache : List (String × (ℚ × ℚ)))
    (calls : ℕ) : (ℚ × ℚ) × List (String × (ℚ × ℚ)) × ℕ :=
  match (if o.directBuy.isEmpty then o.directSell else o.directBuy) with
  | [] => gmiAfter o sym cache (calls + 1)
  | p :: _ =>
    if p > 0 then ((p, 0), memoInsert cache sym (p, 0), calls + 1)
    else gmiAfter o sym cache (calls + 1)

/-- The does-not-exists branch (lines 167-216): order-book probe when
both book calls succeed, then the direct lookup, then the fallback. -/
def gmiProbe (o : GmiOracle) (sym : String) (cache : List (String × (ℚ × ℚ)))
    (calls : ℕ) : (ℚ × ℚ) × List (String × (ℚ × ℚ)) × ℕ :=
  match o.buyBook, o.sellBook with
  | Except.ok bb, Except.ok sb =>
    match orderBookProbe bb sb with
    | some pv => (pv, memoInsert cache sym pv, calls + 2)
    | none => gmiDirect o sym cache (calls + 2)
  | _, _ => gmiDirect o sym cache (calls + 2)

/-- Trade-history retry loop of `get_market_info` (lines 143-219):
a non-empty trade list resolves price = most recent trade, volume = the
24h sum; an empty list moves to the next attempt; a
"does not exists" error goes to the probe chain and stops retrying;
any other error retries (after a plain `delay` sleep). -/
def gmiTrades (now : ℤ) (o : GmiOracle) (sym : String) :
    ℕ → ℕ → List (String × (ℚ × ℚ)) → ℕ → (ℚ × ℚ) × List (String × (ℚ × ℚ)) × ℕ
  | 0, _, cache, calls => gmiAfter o sym cache calls
  | fuel + 1, attempt, cache, calls =>
    match o.tradesAt attempt with
    | TradesOutcome.ok [] => gmiTrades now o sym fuel (attempt + 1) cache (calls + 1)
    | TradesOutcome.ok (t :: ts) =>
      ((t.price, get_24h_volume now (t :: ts)),
        memoInsert cache sym (t.price, get_24h_volume now (t :: ts)), calls + 1)
    | TradesOutcome.err m =>
      if hasSub (lowerStr m) "does not exists" then gmiProbe o sym cache (calls + 1)
      else gmiTrades now o sym fuel (attempt + 1) cache (calls + 1)

/-- Function `get_market_info` (hive_engine_utils.py lines 102-235), over the
in-memory memo and the oracle; returns (result, memo after the call,
number of remote queries issued). -/
def get_market_info (now : ℤ) (retries : ℕ) (cache : List (String × (ℚ × ℚ)))
    (o : GmiOracle) (sym : String) : (ℚ × ℚ) × List (String × (ℚ × ℚ)) × ℕ :=
  match memoLookup cache sym with
  | some pv => (pv, cache, 0)
  | none =>
    if sym = "SWAP.HIVE" then ((1, 0), memoInsert cache sym (1, 0), 0)
    else
      match o.metrics1 with
      | some (lp, vol) =>
        if lp > 0 then ((lp, vol), memoInsert cache sym (lp, vol), 1)
        else gmiTrades now o sym retries 0 cache 1
      | none => gmiTrades now o sym retries 0 cache 1

lemma memoLookup_memoInsert (cache : List (String × (ℚ × ℚ))) (s : String) (v : ℚ × ℚ) :
    memoLookup (memoInsert cache s v) s = some v := by
  induction cache with
  | nil => simp [memoInsert, memoLookup]
  | cons kv rest ih =>
    obtain ⟨k, v0⟩ := kv
    by_cases hk : k = s
    · simp [memoInsert, memoLookup, hk]
    · simp [memoInsert, memoLookup, hk, ih]

lemma gmiAfter_memo (o : GmiOracle) (sym : String) (cache : List (String × (ℚ × ℚ)))
    (calls : ℕ) :
    memoLookup (gmiAfter o sym cache calls).2.1 sym = some (gmiAfter o sym cache calls).1 := by
  rw [gmiAfter]
  cases hm : o.metrics2 with
  | none => simp [memoLookup_memoInsert]
  | some lv =>
    obtain ⟨lp, v⟩ := lv
    by_cases hlp : lp > 0
    · simp [hlp, memoLookup_memoInsert]
    · simp [hlp, memoLookup_memoInsert]

lemma gmiDirect_memo (o : GmiOracle) (sym : String) (cache : List (String × (ℚ × ℚ)))
    (calls : ℕ) :
    memoLookup (gmiDirect o sym cache calls).2.1 sym =
      some (gmiDirect o sym cache calls).1 := by
  rw [gmiDirect]
  cases hmd : (if o.directBuy.isEmpty then o.directSell else o.directBuy) with
  | nil => exact gmiAfter_memo o sym cache (calls + 1)
  | cons p rest =>
    by_cases hp : p > 0
    · simp [hp, memoLookup_memoInsert]
    · simp only [hp, if_false]
      exact gmiAfter_memo o sym cache (calls + 1)

lemma gmiProbe_memo (o : GmiOracle) (sym : String) (cache : List (String × (ℚ × ℚ)))
    (calls : ℕ) :
    memoLookup (gmiProbe o sym cache calls).2.1 sym =
      some (gmiProbe o sym cache calls).1 := by
  cases hb : o.buyBook with
  | ok bb =>
    cases hsb : o.sellBook with
    | ok sb =>
      cases hp : orderBookProbe bb sb with
      | some pv =>
        simp only [gmiProbe, hb, hsb, hp]
        simp [memoLookup_memoInsert]
      | none =>
        simp only [gmiProbe, hb, hsb, hp]
        exact gmiDirect_memo o sym cache (calls + 2)
    | error e =>
      simp only [gmiProbe, hb, hsb]
      exact gmiDirect_memo o sym cache (calls + 2)
  | error e =>
    simp only [gmiProbe, hb]
    exact gmiDirect_memo o sym cache (calls + 2)

lemma gmiTrades_memo (now : ℤ) (o : GmiOracle) (sym : String) :
    ∀ fuel attempt cache calls,
      memoLookup (gmiTrades now o sym fuel attempt cache calls).2.1 sym =
        some (gmiTrades now o sym fuel attempt cache calls).1 := by
  intro fuel
  induction fuel with
  | zero =>
    intro a cache calls
    rw [gmiTrades]
    exact gmiAfter_memo o sym cache calls
  | succ f ih =>
    intro a cache calls
    rw [gmiTrades]
    cases ht : o.tradesAt a with
    | ok trades =>
      cases trades with
      | nil => exact ih (a + 1) cache (calls + 1)
      | cons t ts => simp [memoLookup_memoInsert]
    | err m =>
      by_cases hdne : hasSub (lowerStr m) "does not exists"
      · simp only [hdne, if_true]
        exact gmiProbe_memo o sym cache (calls + 1)
      · simp only [hdne, Bool.false_eq_true, if_false]
        exact ih (a + 1) cache (calls + 1)

/-- C10: every call of `get_market_info` leaves the in-memory memo
mapping the symbol to exactly the returned pair (including the give-up
value (0, 0)), and any subsequent call with the same symbol against the
resulting memo returns that pair with the memo unchanged and zero remote
queries, whatever the wall-clock time, retry budget and oracle of the
second call — the memo entries carry no timestamp and are not subject to
the 900-second expiration window. -/
theorem market_info_memoized (now : ℤ) (retries : ℕ)
    (cache : List (String × (ℚ × ℚ))) (o : GmiOracle) (sym : String) :
    memoLookup (get_market_info now retries cache o sym).2.1 sym =
      some (get_market_info now retries cache o sym).1 ∧
    (∀ (now2 : ℤ) (retries2 : ℕ) (o2 : GmiOracle),
      get_market_info now2 retries2 (get_market_info now retries cache o sym).2.1 o2 sym =
        ((get_market_info now retries cache o sym).1,
          (get_market_info now retries cache o sym).2.1, 0)) := by
  have h1 : memoLookup (get_market_info now retries cache o sym).2.1 sym =
      some (get_market_info now retries cache o sym).1 := by
    rw [get_market_info]
    cases hm : memoLookup cache sym with
    | some pv => simpa using hm
    | none =>
      by_cases hs : sym = "SWAP.HIVE"
      · simp [hs, memoLookup_memoInsert]
      · cases hmet : o.metrics1 with
        | some lv =>
          obtain ⟨lp, vol⟩ := lv
          by_cases hlp : lp > 0
          · simp [hs, hlp, memoLookup_memoInsert]
          · simp only [hs, hlp, if_false]
            exact gmiTrades_memo now o sym retries 0 cache 1
        | none =>
          simp only [hs, if_false]
          exact gmiTrades_memo now o sym retries 0 cache 1
  refine ⟨h1, ?_⟩
  intro now2 retries2 o2
  rw [get_market_info, h1]


lemma orderBookProbe_both (b s : ℚ) (bs ss : List ℚ) (hb : 0 < b) (hs : 0 ≤ s) :
    orderBookProbe (b :: bs) (s :: ss) = some ((b + s) / 2, 0) := by
  have hbne : ¬ b = 0 := ne_of_gt hb
  have hpos : (if b = 0 then s else (b + s) / 2) > 0 := by
    rw [if_neg hbne]
    exact div_pos (by linarith) (by norm_num)
  show (if (if b = 0 then s else (b + s) / 2) > 0
      then some ((if b = 0 then s else (b + s) / 2), (0 : ℚ)) else none) =
    some ((b + s) / 2, 0)
  rw [if_pos hpos, if_neg hbne]

lemma orderBookProbe_buyOnly (b : ℚ) (bs : List ℚ) (hb : 0 < b) :
    orderBookProbe (b :: bs) [] = some (b, 0) := by
  show (if b > 0 then some (b, (0 : ℚ)) else none) = some (b, 0)
  rw [if_pos hb]

lemma orderBookProbe_sellOnly (s : ℚ) (ss : List ℚ) (hs : 0 < s) :
    orderBookProbe [] (s :: ss) = some (s, 0) := by
  show (if (if (0 : ℚ) = 0 then s else (0 + s) / 2) > 0
      then some ((if (0 : ℚ) = 0 then s else (0 + s) / 2), (0 : ℚ)) else none) =
    some (s, 0)
  simp [hs]

/-- C6 (amended): when the trade-history step of `get_market_info` fails
with a "does not exists"-class error and both order-book calls succeed:
with both books non-empty, a positive best bid and a non-negative best
ask resolve to their arithmetic mean with volume 0; with exactly one
book non-empty, its price (when positive) is used alone, with volume 0.
A best bid present with price exactly 0 is treated as if absent, which
is what the counterexample exhibits. -/
theorem market_info_orderbook (now : ℤ) (retries : ℕ)
    (cache : List (String × (ℚ × ℚ))) (o : GmiOracle) (sym : String)
    (b s : ℚ) (bs ss : List ℚ)
    (hmiss : memoLookup cache sym = none)
    (hswap : sym ≠ "SWAP.HIVE")
    (hmet : ∀ lp vol, o.metrics1 = some (lp, vol) → ¬ lp > 0)
    (hretr : 0 < retries)
    (htr : ∃ m, o.tradesAt 0 = TradesOutcome.err m ∧
      hasSub (lowerStr m) "does not exists" = true) :
    (o.buyBook = Except.ok (b :: bs) → o.sellBook = Except.ok (s :: ss) →
      0 < b → 0 ≤ s →
      (get_market_info now retries cache o sym).1 = ((b + s) / 2, 0)) ∧
    (o.buyBook = Except.ok (b :: bs) → o.sellBook = Except.ok [] → 0 < b →
      (get_market_info now retries cache o sym).1 = (b, 0)) ∧
    (o.buyBook = Except.ok [] → o.sellBook = Except.ok (s :: ss) → 0 < s →
      (get_market_info now retries cache o sym).1 = (s, 0)) := by
  obtain ⟨m, htm, hdne⟩ := htr
  obtain ⟨f, rfl⟩ : ∃ f, retries = f + 1 := ⟨retries - 1, by omega⟩
  have htrades : gmiTrades now o sym (f + 1) 0 cache 1 = gmiProbe o sym cache 2 := by
    rw [gmiTrades, htm]
    simp [hdne]
  have hred : get_market_info now (f + 1) cache o sym = gmiProbe o sym cache 2 := by
    cases hmet1 : o.metrics1 with
    | none =>
      simp only [get_market_info, hmiss, hmet1]
      rw [if_neg hswap]
      exact htrades
    | some lv =>
      obtain ⟨lp, vol⟩ := lv
      simp only [get_market_info, hmiss, hmet1]
      rw [if_neg hswap, if_neg (hmet lp vol hmet1)]
      exact htrades
  rw [hred]
  refine ⟨?_, ?_, ?_⟩
  · intro hbb hsb hb hs
    simp only [gmiProbe, hbb, hsb, orderBookProbe_both b s bs ss hb hs]
  · intro hbb hsb hb
    simp only [gmiProbe, hbb, hsb, orderBookProbe_buyOnly b bs hb]
  · intro hbb hsb hs
    simp only [gmiProbe, hbb, hsb, orderBookProbe_sellOnly s ss hs]

/-- Oracle of the C6 counterexample: trade history always raises a
"does not exists" error; the best bid is present with price 0, the best
ask is 5. -/
def gmiCexOracle : GmiOracle :=
  ⟨none, fun _ => TradesOutcome.err "market does not exists",
    Except.ok [0], Except.ok [5], [], [], none⟩

/-- C6 counterexample: with both books present but best bid price 0 and
best ask 5, `get_market_info` resolves (5, 0) — the ask alone — while
the claim as stated demands the arithmetic mean 2.5. -/
theorem market_info_orderbook_cex :
    (get_market_info 0 3 [] gmiCexOracle "DEAD").1 = (5, 0) ∧
    ((5 : ℚ), (0 : ℚ)) ≠ (((0 : ℚ) + 5) / 2, 0) := by
  constructor
  · rfl
  · intro h
    injection h with h1 h2
    norm_num at h1

/-- Oracle of the C6 witness: best bid 3, best ask 5. -/
def gmiWitOracle : GmiOracle :=
  ⟨none, fun _ => TradesOutcome.err "symbol does not exists",
    Except.ok [3], Except.ok [5], [], [], none⟩

/-- Witness for C6 (amended) at a concrete input: best bid 3 and best
ask 5 resolve to price (3+5)/2 = 4 with volume 0. -/
theorem market_info_orderbook_witness :
    (get_market_info 0 3 [] gmiWitOracle "GONE").1 = (((3 : ℚ) + 5) / 2, 0) :=
  (market_info_orderbook 0 3 [] gmiWitOracle "GONE" 3 5 [] []
      rfl (by decide) (fun lp vol h => by simp [gmiWitOracle] at h) (by norm_num)
      ⟨"symbol does not exists", rfl, by decide⟩).1 rfl rfl (by norm_num) (by norm_num)

end HiveEngineUtils

namespace DieselPools

/-- Raw pool record as returned by the provider; every field is read
with a `.get` default in the source, so each is optional. -/
structure RawPool where
  tokenPair : Option String
  baseSymbol : Option String
  quoteSymbol : Option String
  baseQuantity : Option ℚ
  quoteQuantity : Option ℚ
  totalShares : Option ℚ
  poolId : Option String

/-- Validated pool data built at diesel_pools.py lines 120-128. -/
structure PoolData where
  token_pair : String
  base_token : String
  quote_token : String
  base_quantity : ℚ
  quote_quantity : ℚ
  total_shares : ℚ
  pool_id : String

/-- Splitting a char list on the colon delimiter, modelling Python's
`token_pair.split(":")`. -/
def splitChars : List Char → List Char → List (List Char)
  | [], acc => [acc.reverse]
  | c :: rest, acc =>
    if c = ':' then acc.reverse :: splitChars rest [] else splitChars rest (c :: acc)

/-- Python `token_pair.split(":")` as a string operation. -/
def splitColon (s : String) : List String :=
  (splitChars s.data []).map (fun cs => ⟨cs⟩)

/-- Oracle for the four query methods of the pool search, per attempt:
exact tokenPair query, base/quote query, reversed base/quote query, and
the bulk fetch of up to 100 pools (all via `fetch_from_hive_engine`,
which never raises). -/
structure PoolOracle where
  q1 : ℕ → List RawPool
  q2 : ℕ → List RawPool
  q3 : ℕ → List RawPool
  qAll : ℕ → List RawPool

/-- Local filter of method 4 (diesel_pools.py lines 89-91). -/
def matchesTarget (token_pair base quote : String) (p : RawPool) : Bool :=
  p.tokenPair.getD "" == token_pair ||
    (p.baseSymbol.getD "" == base && p.quoteSymbol.getD "" == quote) ||
    (p.baseSymbol.getD "" == quote && p.quoteSymbol.getD "" == base)

/-- Search loop of `get_diesel_pool_info` (lines 45-103): the four
methods in order, the first non-empty hit wins, retried with backoff
between whole rounds until the budget is exhausted. -/
def poolSearch (o : PoolOracle) (token_pair base quote : String) :
    ℕ → ℕ → Option RawPool
  | 0, _ => none
  | fuel + 1, attempt =>
    match o.q1 attempt with
    | p :: _ => some p
    | [] =>
      match o.q2 attempt with
      | p :: _ => some p
      | [] =>
        match o.q3 attempt with
        | p :: _ => some p
        | [] =>
          match (o.qAll attempt).find? (matchesTarget token_pair base quote) with
          | some p => some p
          | none => poolSearch o token_pair base quote fuel (attempt + 1)

/-- Function `get_diesel_pool_info` (diesel_pools.py lines 30-136): pair parsing
(exactly two colon-delimited tokens), the retried search, then
validation — a located record whose totalShares parses to 0 yields
None. -/
def get_diesel_pool_info (o : PoolOracle) (token_pair : String) (retries : ℕ) :
    Option PoolData :=
  match splitColon token_pair with
  | [base_token, quote_token] =>
    match poolSearch o token_pair base_token quote_token retries 0 with
    | none => none
    | some pi =>
      if pi.totalShares.getD 0 = 0 then none
      else
        some ⟨token_pair, pi.baseSymbol.getD base_token, pi.quoteSymbol.getD quote_token,
          pi.baseQuantity.getD 0, pi.quoteQuantity.getD 0, pi.totalShares.getD 0,
          pi.poolId.getD ""⟩
  | _ => none

/-- C8: a pool record located by any of the four matching methods with
totalShares 0 makes the resolver return None (absent), and consequently
no pool with total_shares = 0 ever appears in the resolver's output. -/
theorem pool_zero_shares_absent (o : PoolOracle) (token_pair : String) (retries : ℕ) :
    (∀ base quote raw, splitColon token_pair = [base, quote] →
      poolSearch o token_pair base quote retries 0 = some raw →
      raw.totalShares.getD 0 = 0 →
      get_diesel_pool_info o token_pair retries = none) ∧
    (∀ pd, get_diesel_pool_info o token_pair retries = some pd →
      pd.total_shares ≠ 0) := by
  constructor
  · intro base quote raw hsplit hsearch hts
    simp [get_diesel_pool_info, hsplit, hsearch, hts]
  · intro pd hpd
    rcases hsplit : splitColon token_pair with _ | ⟨base, rest⟩
    · simp [get_diesel_pool_info, hsplit] at hpd
    · rcases rest with _ | ⟨quote, rest2⟩
      · simp [get_diesel_pool_info, hsplit] at hpd
      · rcases rest2 with _ | ⟨x, rest3⟩
        · cases hsearch : poolSearch o token_pair base quote retries 0 with
          | none => simp [get_diesel_pool_info, hsplit, hsearch] at hpd
          | some pi =>
            by_cases hts : pi.totalShares.getD 0 = 0
            · simp [get_diesel_pool_info, hsplit, hsearch, hts] at hpd
            · simp only [get_diesel_pool_info, hsplit, hsearch] at hpd
              rw [if_neg hts] at hpd
              simp only [Option.some.injEq] at hpd
              rw [← hpd]
              exact hts
        · simp [get_diesel_pool_info, hsplit] at hpd

/-- Oracle of the C8 witness: method 1 immediately returns a pool record
with totalShares 0. -/
def poolWitOracle : PoolOracle :=
  ⟨fun _ => [⟨some "A:B", some "A", some "B", some 10, some 20, some 0, some "p1"⟩],
    fun _ => [], fun _ => [], fun _ => []⟩

/-- Witness for C8 at a concrete input: the located zero-share pool is
resolved as absent. -/
theorem pool_zero_shares_absent_witness :
    get_diesel_pool_info poolWitOracle "A:B" 5 = none :=
  (pool_zero_shares_absent poolWitOracle "A:B" 5).1 "A" "B"
    ⟨some "A:B", some "A", some "B", some 10, some 20, some 0, some "p1"⟩
    (by decide) rfl rfl

end DieselPools

namespace TakeSnapshot

/-- Per-token valuation line of the main loop of take-snapshot.py
(lines 489-515). -/
structure TokenLine where
  total_amount : ℚ
  price_usd : ℚ
  vol24_usd : ℚ
  total_usd : ℚ
  total_hive : ℚ
  total_btc : ℚ

/-- take-snapshot.py lines 497-502: quantity breakdown, fiat and HIVE
values, and the guarded BTC conversion. -/
def tokenLine (liquid staked delegated price_hive vol24_hive hive_usd btc_usd : ℚ) :
    TokenLine :=
  let total_amount := liquid + staked + delegated
  let price_usd := price_hive * hive_usd
  let vol24_usd := vol24_hive * hive_usd
  let total_usd := total_amount * price_usd
  let total_hive := total_amount * price_hive
  let total_btc := if btc_usd > 0 then total_usd / btc_usd else 0
  ⟨total_amount, price_usd, vol24_usd, total_usd, total_hive, total_btc⟩

/-- diesel_pools.py lines 298-300 (same guard at take-snapshot.py lines
528-529): pool USD value and guarded BTC value. -/
def poolTotals (total_hive hive_usd btc_usd : ℚ) : ℚ × ℚ :=
  let total_usd := total_hive * hive_usd
  (total_usd, if btc_usd > 0 then total_usd / btc_usd else 0)

/-- C9: with a BTC/USD price of 0 (or any non-positive value) the
guarded conversion yields exactly 0 for token lines and for pools — the
embedding is a total function over ℚ, so no division error and no
NaN/infinity can arise — while the fiat and HIVE values are unchanged by
the guard (they equal their unguarded formulas). -/
theorem guarded_btc_value (liquid staked delegated price_hive vol24_hive hive_usd
    btc_usd th : ℚ) (hbtc : btc_usd ≤ 0) :
    (tokenLine liquid staked delegated price_hive vol24_hive hive_usd
        btc_usd).total_btc = 0 ∧
    (poolTotals th hive_usd btc_usd).2 = 0 ∧
    (tokenLine liquid staked delegated price_hive vol24_hive hive_usd
        btc_usd).total_usd = (liquid + staked + delegated) * (price_hive * hive_usd) ∧
    (tokenLine liquid staked delegated price_hive vol24_hive hive_usd
        btc_usd).total_hive = (liquid + staked + delegated) * price_hive ∧
    (poolTotals th hive_usd btc_usd).1 = th * hive_usd := by
  have hng : ¬ btc_usd > 0 := not_lt.mpr hbtc
  refine ⟨?_, ?_, rfl, rfl, rfl⟩
  · simp only [tokenLine]
    rw [if_neg hng]
  · simp only [poolTotals]
    rw [if_neg hng]

/-- Witness for C9 at a concrete input with BTC/USD price 0. -/
theorem guarded_btc_value_witness :
    (tokenLine 100 50 10 2 5 (1/2) 0).total_btc = 0 ∧
    (poolTotals 200 (1/2) 0).2 = 0 ∧
    (tokenLine 100 50 10 2 5 (1/2) 0).total_usd = (100 + 50 + 10) * (2 * (1/2)) ∧
    (tokenLine 100 50 10 2 5 (1/2) 0).total_hive = (100 + 50 + 10) * 2 ∧
    (poolTotals 200 (1/2) 0).1 = 200 * (1/2) :=
  guarded_btc_value 100 50 10 2 5 (1/2) 0 200 (by norm_num)

end TakeSnapshot
